import Mathlib

/-!
Verification development for the kingdom pixel-perfect camera controller.

The definitions below are a shallow embedding of `src/unnamed/part_000`
(the full variant of `src/main.js`, which also contains `createRampTexture`)
and `src/cel-shader.js`.  JavaScript numbers are modelled as exact rationals
(`ℚ`); byte stores into the `Uint8Array` ramp table reduce modulo 256 exactly
as the typed-array conversion does.  `Math.round` agrees with Mathlib's
`round` (both send a half to the value toward positive infinity), and
`Math.sign` is embedded as `jsign` below.
-/

section PixelGrid

variable {K : Type} [LinearOrderedField K] [FloorRing K]

/-- Embedding of `snapToPixelGrid(vector, pixelSize)` from
`src/unnamed/part_000` lines 270-272:
`Math.round(vector / pixelSize) * pixelSize`. -/
def snapToPixelGrid (vector pixelSize : K) : K :=
  ((round (vector / pixelSize) : ℤ) : K) * pixelSize

/-- Snapping any integer multiple of the pixel size is the identity. -/
theorem snapToPixelGrid_intMul (k : ℤ) (p : K) (hp : p ≠ 0) :
    snapToPixelGrid ((k : K) * p) p = (k : K) * p := by
  unfold snapToPixelGrid
  rw [mul_div_assoc, div_self hp, mul_one, round_intCast]

end PixelGrid

/-- Embedding of JavaScript `Math.sign` on (non-NaN) numbers. -/
def jsign (q : ℚ) : ℚ :=
  if 0 < q then 1 else if q < 0 then -1 else 0

/-- A triple of rational coordinates, standing for a `THREE.Vector3`. -/
structure Vec3 where
  x : ℚ
  y : ℚ
  z : ℚ
deriving DecidableEq

/-- Pointwise sum, standing for `Vector3.add`. -/
def Vec3.add (a b : Vec3) : Vec3 := ⟨a.x + b.x, a.y + b.y, a.z + b.z⟩

/-- Scalar multiple, standing for `Vector3.multiplyScalar`. -/
def Vec3.smul (a : Vec3) (m : ℚ) : Vec3 := ⟨a.x * m, a.y * m, a.z * m⟩

/-- One axis of the per-tick drain of `applyRenderOffset`
(`src/unnamed/part_000` lines 287-310): when the accumulated offset has
magnitude at least one, its sign is subtracted once; otherwise it is kept. -/
def drainAxis (v : ℚ) : ℚ :=
  if 1 ≤ |v| then v - jsign v else v

/-- Embedding of `applyRenderOffset` from `src/unnamed/part_000` lines
287-325.  `right` and `forward` are the camera-relative basis vectors
`(1,0,0)` and `(0,0,-1)` rotated by the pivot quaternion (pure yaw), `upcp`
is `unitPerCameraPixel` and `adj` is `xAngleAdjustedUPCP`.  The result is
the new pivot position, the new render offset, and the quad-mesh x/y
position set at the end of the function. -/
def applyRenderOffset (right forward : Vec3) (upcp adj : ℚ)
    (pivot off : Vec3) : Vec3 × Vec3 × ℚ × ℚ :=
  let p1 := if 1 ≤ |off.x| then pivot.add (right.smul (upcp * jsign off.x)) else pivot
  let o1 : Vec3 := ⟨drainAxis off.x, off.y, off.z⟩
  let p2 := if 1 ≤ |o1.z| then p1.add (forward.smul (adj * jsign o1.z)) else p1
  let o2 : Vec3 := ⟨o1.x, o1.y, drainAxis o1.z⟩
  let p3 := if 1 ≤ |o2.y| then p2.add (Vec3.smul ⟨0, 1, 0⟩ (upcp * jsign o2.y)) else p2
  let o3 : Vec3 := ⟨o2.x, drainAxis o2.y, o2.z⟩
  let p4 : Vec3 :=
    ⟨snapToPixelGrid p3.x upcp, snapToPixelGrid p3.y upcp, snapToPixelGrid p3.z upcp⟩
  let qx := snapToPixelGrid (-((round o3.x : ℤ) : ℚ) * upcp) upcp
  let qy := snapToPixelGrid (-((round (o3.y + o3.z) : ℤ) : ℚ) * upcp) upcp
  (p4, o3, qx, qy)

/-- C6: `snap(value, pixelSize)` is `round(value / pixelSize) * pixelSize`
(this is the definition of `snapToPixelGrid`), and snapping is idempotent
for every `v` and positive pixel size `p` in any archimedean-free linearly
ordered field with a floor (in particular the reals and the rationals). -/
theorem snapToPixelGrid_idempotent {K : Type} [LinearOrderedField K] [FloorRing K]
    (v p : K) (hp : 0 < p) :
    snapToPixelGrid (snapToPixelGrid v p) p = snapToPixelGrid v p ∧
      snapToPixelGrid v p = ((round (v / p) : ℤ) : K) * p := by
  refine ⟨?_, rfl⟩
  exact snapToPixelGrid_intMul (round (v / p)) p (ne_of_gt hp)

/-- Witness for C6 at `v = 7/3`, `p = 1/2` over `ℚ`. -/
theorem snapToPixelGrid_idempotent_witness :
    (0 : ℚ) < 1/2 ∧
      (snapToPixelGrid (snapToPixelGrid (7/3 : ℚ) (1/2)) (1/2) =
          snapToPixelGrid (7/3 : ℚ) (1/2) ∧
        snapToPixelGrid (7/3 : ℚ) (1/2) = ((round ((7:ℚ)/3 / (1/2)) : ℤ) : ℚ) * (1/2)) :=
  ⟨by norm_num, snapToPixelGrid_idempotent (7/3 : ℚ) (1/2) (by norm_num)⟩

/-- C1 counterexample: the drain in `applyRenderOffset` is an `if`, not a
`while`.  Starting a drain pass with `renderOffset.x = 2.4` (pivot at the
origin, yaw zero, `unitPerCameraPixel = 1/10`) moves the pivot by exactly
one lateral pixel-unit step (to `1/10`, not `2/10`) and leaves
`renderOffset.x = 1.4`, not `0.4`. -/
theorem applyRenderOffset_drain_if_not_while :
    (applyRenderOffset ⟨1, 0, 0⟩ ⟨0, 0, -1⟩ (1/10) (1/7) ⟨0, 0, 0⟩
        ⟨12/5, 0, 0⟩).2.1.x = 7/5 ∧
    (applyRenderOffset ⟨1, 0, 0⟩ ⟨0, 0, -1⟩ (1/10) (1/7) ⟨0, 0, 0⟩
        ⟨12/5, 0, 0⟩).1.x = 1/10 ∧
    ¬((applyRenderOffset ⟨1, 0, 0⟩ ⟨0, 0, -1⟩ (1/10) (1/7) ⟨0, 0, 0⟩
        ⟨12/5, 0, 0⟩).2.1.x = 2/5 ∧
      (applyRenderOffset ⟨1, 0, 0⟩ ⟨0, 0, -1⟩ (1/10) (1/7) ⟨0, 0, 0⟩
        ⟨12/5, 0, 0⟩).1.x = 2 * (1/10)) := by
  have h1 : |(12 : ℚ)/5| = 12/5 := abs_of_pos (by norm_num)
  have h2 : |(7 : ℚ)/5| = 7/5 := abs_of_pos (by norm_num)
  have h3 : |(0 : ℚ)| = 0 := abs_zero
  norm_num [applyRenderOffset, drainAxis, jsign, snapToPixelGrid, Vec3.add,
    Vec3.smul, round_eq, h1, h2, h3]

/-- C1 (amended): each tick the drain takes at most one step per axis, on
every one of the three axes and for either sign of the accumulator.  With
the pivot at the origin, yaw-zero bases and pixel size `p ≠ 0`, an
accumulator entry `q` of magnitude at least one drains exactly once: a
lateral entry moves the pivot by one step `sign(q) * p` along the right
vector, a vertical entry by one step `sign(q) * p` along world up, and a
depth entry by one `xAngleAdjustedUPCP`-sized step `a * sign(q)` along the
forward vector (then snapped to the `p` grid, as the source snaps every
pivot component); in each case `sign(q)` is subtracted from that axis
once, so a residue of magnitude at least one carries to later ticks. -/
theorem applyRenderOffset_single_step (q p a : ℚ) (hq : 1 ≤ |q|) (hp : p ≠ 0) :
    applyRenderOffset ⟨1, 0, 0⟩ ⟨0, 0, -1⟩ p a ⟨0, 0, 0⟩ ⟨q, 0, 0⟩ =
      (⟨jsign q * p, 0, 0⟩, ⟨q - jsign q, 0, 0⟩,
        -((round (q - jsign q) : ℤ) : ℚ) * p, 0) ∧
    applyRenderOffset ⟨1, 0, 0⟩ ⟨0, 0, -1⟩ p a ⟨0, 0, 0⟩ ⟨0, q, 0⟩ =
      (⟨0, jsign q * p, 0⟩, ⟨0, q - jsign q, 0⟩, 0,
        -((round (q - jsign q) : ℤ) : ℚ) * p) ∧
    applyRenderOffset ⟨1, 0, 0⟩ ⟨0, 0, -1⟩ p a ⟨0, 0, 0⟩ ⟨0, 0, q⟩ =
      (⟨0, 0, snapToPixelGrid (-(a * jsign q)) p⟩, ⟨0, 0, q - jsign q⟩, 0,
        -((round (q - jsign q) : ℤ) : ℚ) * p) := by
  have hs0 : snapToPixelGrid (0 : ℚ) p = 0 := by
    simpa using snapToPixelGrid_intMul 0 p hp
  have hsp : snapToPixelGrid p p = p := by
    simpa using snapToPixelGrid_intMul 1 p hp
  have hsn : snapToPixelGrid (-p) p = -p := by
    have h := snapToPixelGrid_intMul (-1) p hp
    push_cast at h
    simpa using h
  rcases le_abs.mp hq with hpos | hneg
  · have h0 : 0 < q := lt_of_lt_of_le one_pos hpos
    have hjs : jsign q = 1 := if_pos h0
    have hqx : snapToPixelGrid ((1 - ((round q : ℤ) : ℚ)) * p) p =
        (1 - ((round q : ℤ) : ℚ)) * p := by
      have h := snapToPixelGrid_intMul (1 - round q) p hp
      push_cast at h
      simpa using h
    refine ⟨?_, ?_, ?_⟩ <;>
      · simp only [applyRenderOffset, drainAxis, jsign, Vec3.add, Vec3.smul]
        norm_num [hq, h0, hs0, hsp, hsn, hqx]
  · have h0 : q < 0 := by linarith
    have hn0 : ¬ 0 < q := not_lt.mpr (le_of_lt h0)
    have hjs : jsign q = -1 := by
      unfold jsign
      rw [if_neg hn0, if_pos h0]
    have hle : q ≤ -1 := by linarith
    have hqx : snapToPixelGrid ((-1 + -((round q : ℤ) : ℚ)) * p) p =
        (-1 + -((round q : ℤ) : ℚ)) * p := by
      have h := snapToPixelGrid_intMul (-1 + -(round q)) p hp
      push_cast at h
      simpa using h
    refine ⟨?_, ?_, ?_⟩ <;>
      · simp only [applyRenderOffset, drainAxis, jsign, Vec3.add, Vec3.smul]
        norm_num [hq, h0, hn0, hle, hs0, hsp, hsn, hqx]

/-- C2 counterexample: with a leftover lateral fraction `0.4` in the
accumulator (pixel size `1/10`), the quad's horizontal position is
`-Math.round(0.4) * unitPerCameraPixel = 0`, not the fractional
`-(0.4) * unitPerCameraPixel = -1/25` the claim states. -/
theorem applyRenderOffset_quad_not_fractional :
    (applyRenderOffset ⟨1, 0, 0⟩ ⟨0, 0, -1⟩ (1/10) (1/7) ⟨0, 0, 0⟩
        ⟨2/5, 0, 0⟩).2.2.1 = 0 ∧
    (0 : ℚ) ≠ -(2/5) * (1/10) := by
  have h1 : |(2 : ℚ)/5| = 2/5 := abs_of_pos (by norm_num)
  have h3 : |(0 : ℚ)| = 0 := abs_zero
  norm_num [applyRenderOffset, drainAxis, jsign, snapToPixelGrid, Vec3.add,
    Vec3.smul, round_eq, h1, h3]

/-- C2 (amended): after the drain, the quad position is recomputed from
scratch as minus the ROUNDED leftover accumulator scaled by
`unitPerCameraPixel` (the final `snapToPixelGrid` wrapper is the identity
on these integer multiples of the pixel size): horizontally
`-round(leftover x) * upcp`, vertically `-round(leftover y + leftover z) * upcp`. -/
theorem applyRenderOffset_quad_rounded (right forward : Vec3) (upcp adj : ℚ)
    (pivot off : Vec3) (hp : upcp ≠ 0) :
    (applyRenderOffset right forward upcp adj pivot off).2.2.1 =
      -((round (applyRenderOffset right forward upcp adj pivot off).2.1.x : ℤ) : ℚ)
        * upcp ∧
    (applyRenderOffset right forward upcp adj pivot off).2.2.2 =
      -((round ((applyRenderOffset right forward upcp adj pivot off).2.1.y +
          (applyRenderOffset right forward upcp adj pivot off).2.1.z) : ℤ) : ℚ)
        * upcp := by
  unfold applyRenderOffset
  dsimp only
  constructor
  · have h := snapToPixelGrid_intMul (-(round (drainAxis off.x))) upcp hp
    push_cast at h
    simpa using h
  · have h := snapToPixelGrid_intMul
      (-(round (drainAxis off.y + drainAxis off.z))) upcp hp
    push_cast at h
    simpa using h

/-- Witness for `applyRenderOffset_single_step` at `q = 12/5`, `p = 1/10`,
`a = 1/7`. -/
theorem applyRenderOffset_single_step_witness :
    ((1 : ℚ) ≤ |(12 : ℚ)/5| ∧ (1/10 : ℚ) ≠ 0) ∧
      (applyRenderOffset ⟨1, 0, 0⟩ ⟨0, 0, -1⟩ (1/10) (1/7) ⟨0, 0, 0⟩ ⟨12/5, 0, 0⟩ =
        (⟨jsign (12/5) * (1/10), 0, 0⟩, ⟨12/5 - jsign (12/5), 0, 0⟩,
          -((round ((12:ℚ)/5 - jsign (12/5)) : ℤ) : ℚ) * (1/10), 0) ∧
      applyRenderOffset ⟨1, 0, 0⟩ ⟨0, 0, -1⟩ (1/10) (1/7) ⟨0, 0, 0⟩ ⟨0, 12/5, 0⟩ =
        (⟨0, jsign (12/5) * (1/10), 0⟩, ⟨0, 12/5 - jsign (12/5), 0⟩, 0,
          -((round ((12:ℚ)/5 - jsign (12/5)) : ℤ) : ℚ) * (1/10)) ∧
      applyRenderOffset ⟨1, 0, 0⟩ ⟨0, 0, -1⟩ (1/10) (1/7) ⟨0, 0, 0⟩ ⟨0, 0, 12/5⟩ =
        (⟨0, 0, snapToPixelGrid (-((1 : ℚ)/7 * jsign (12/5))) (1/10)⟩,
          ⟨0, 0, 12/5 - jsign (12/5)⟩, 0,
          -((round ((12:ℚ)/5 - jsign (12/5)) : ℤ) : ℚ) * (1/10))) :=
  ⟨⟨by rw [abs_of_pos (by norm_num : (0 : ℚ) < 12/5)]; norm_num, by norm_num⟩,
    applyRenderOffset_single_step (12/5) (1/10) (1/7)
      (by rw [abs_of_pos (by norm_num : (0 : ℚ) < 12/5)]; norm_num) (by norm_num)⟩

/-- Witness for `applyRenderOffset_quad_rounded` at a concrete state. -/
theorem applyRenderOffset_quad_rounded_witness :
    ((1/10 : ℚ) ≠ 0) ∧
      ((applyRenderOffset ⟨1, 0, 0⟩ ⟨0, 0, -1⟩ (1/10) (1/7) ⟨0, 0, 0⟩
          ⟨2/5, 0, 3/2⟩).2.2.1 =
        -((round (applyRenderOffset ⟨1, 0, 0⟩ ⟨0, 0, -1⟩ (1/10) (1/7) ⟨0, 0, 0⟩
            ⟨2/5, 0, 3/2⟩).2.1.x : ℤ) : ℚ) * (1/10) ∧
      (applyRenderOffset ⟨1, 0, 0⟩ ⟨0, 0, -1⟩ (1/10) (1/7) ⟨0, 0, 0⟩
          ⟨2/5, 0, 3/2⟩).2.2.2 =
        -((round ((applyRenderOffset ⟨1, 0, 0⟩ ⟨0, 0, -1⟩ (1/10) (1/7) ⟨0, 0, 0⟩
            ⟨2/5, 0, 3/2⟩).2.1.y +
          (applyRenderOffset ⟨1, 0, 0⟩ ⟨0, 0, -1⟩ (1/10) (1/7) ⟨0, 0, 0⟩
            ⟨2/5, 0, 3/2⟩).2.1.z) : ℤ) : ℚ) * (1/10)) :=
  ⟨by norm_num,
    applyRenderOffset_quad_rounded ⟨1, 0, 0⟩ ⟨0, 0, -1⟩ (1/10) (1/7) ⟨0, 0, 0⟩
      ⟨2/5, 0, 3/2⟩ (by norm_num)⟩

/-- Pads `values` with zeros until it has `breakpoints.length + 1` entries,
as the loop `while (values.length < breakpoints.length + 1) values.push(0)`
of `createRampTexture` does (`src/unnamed/part_000` lines 349-351). -/
def padValues (breakpoints values : List ℕ) : List ℕ :=
  values ++ List.replicate (breakpoints.length + 1 - values.length) 0

/-- The index update of the first loop of `createRampTexture`:
`if (i > breakpoints[currentValueIndex]) currentValueIndex++`.  An
out-of-range JavaScript array read yields `undefined`, and the comparison
with `undefined` is false, so the index is then kept. -/
def rampStep (breakpoints : List ℕ) (i idx : ℕ) : ℕ :=
  if h : idx < breakpoints.length then
    if breakpoints.get ⟨idx, h⟩ < i then idx + 1 else idx
  else idx

/-- The first loop of `createRampTexture` (`src/unnamed/part_000` lines
356-362), producing the table cells for `fuel` consecutive sample indices
starting at `i`; cell values are reduced modulo 256 by the `Uint8Array`. -/
def rampLoop (breakpoints values : List ℕ) : ℕ → ℕ → ℕ → List ℕ
  | 0, _, _ => []
  | fuel + 1, i, idx =>
    let idx1 := rampStep breakpoints i idx
    values.getD idx1 0 % 256 :: rampLoop breakpoints values fuel (i + 1) idx1

/-- Embedding of the `Uint8Array` built by `createRampTexture`
(`src/unnamed/part_000` lines 348-379).  The first loop fills sample
indices `[0, lastBreakpoint)` (writes past index 255 are dropped by the
typed array, and the trailing loop does not run when the last breakpoint
exceeds 256); the remaining indices hold the last value.  With an empty
breakpoints list both loop bounds are `undefined`, no iteration runs, and
the zero-initialized array is returned unchanged. -/
def rampData (breakpoints values : List ℕ) : List ℕ :=
  match breakpoints.getLast? with
  | none => List.replicate 256 0
  | some lastBp =>
    let vals := padValues breakpoints values
    rampLoop breakpoints vals (min lastBp 256) 0 0 ++
      List.replicate (256 - min lastBp 256) (vals.getD (vals.length - 1) 0 % 256)

theorem rampLoop_length (breakpoints values : List ℕ) :
    ∀ (fuel i idx : ℕ), (rampLoop breakpoints values fuel i idx).length = fuel := by
  intro fuel
  induction fuel with
  | zero => intro i idx; rfl
  | succ n ih => intro i idx; simp [rampLoop, ih]

theorem rampStep_cons_succ (b : ℕ) (rest : List ℕ) (i k : ℕ) :
    rampStep (b :: rest) i (k + 1) = rampStep rest i k + 1 := by
  unfold rampStep
  by_cases h : k < rest.length
  · rw [dif_pos (by simpa using Nat.succ_lt_succ h), dif_pos h]
    simp only [List.get_cons_succ]
    split <;> rfl
  · rw [dif_neg (by simpa using fun hh => h (Nat.lt_of_succ_lt_succ hh)), dif_neg h]

/-- Loop-invariant step: if the current value index is the number of
breakpoints `b` with `b + 1 < i`, then after the conditional increment at
sample `i` it is the number of breakpoints strictly below `i`. -/
theorem rampStep_countP (bps : List ℕ) (i : ℕ) (hs : List.Sorted (· < ·) bps) :
    rampStep bps i (bps.countP (fun b => decide (b + 1 < i))) =
      bps.countP (fun b => decide (b < i)) := by
  induction bps with
  | nil => rfl
  | cons b rest ih =>
    rw [List.sorted_cons] at hs
    obtain ⟨hb, hrest⟩ := hs
    by_cases hbi : b + 1 < i
    · have hcp : List.countP (fun b => decide (b + 1 < i)) (b :: rest) =
          List.countP (fun b => decide (b + 1 < i)) rest + 1 := by
        simp [List.countP_cons, hbi]
      have hcl : List.countP (fun b => decide (b < i)) (b :: rest) =
          List.countP (fun b => decide (b < i)) rest + 1 := by
        simp [List.countP_cons, Nat.lt_of_succ_lt hbi]
      rw [hcp, hcl, rampStep_cons_succ, ih hrest]
    · have hle : i ≤ b + 1 := Nat.le_of_not_lt hbi
      have hrest0 : ∀ x ∈ rest, ¬(x + 1 < i) := by
        intro x hx
        have : b < x := hb x hx
        omega
      have hrestl : ∀ x ∈ rest, ¬(x < i) := by
        intro x hx
        have : b < x := hb x hx
        omega
      have hcp : List.countP (fun b => decide (b + 1 < i)) (b :: rest) = 0 := by
        simp only [List.countP_cons]
        rw [List.countP_eq_zero.mpr (by simpa using hrest0)]
        simp [hbi]
      have hcl : List.countP (fun b => decide (b < i)) (b :: rest) =
          if b < i then 1 else 0 := by
        simp only [List.countP_cons]
        rw [List.countP_eq_zero.mpr (by simpa using hrestl)]
        simp
      rw [hcp, hcl]
      simp [rampStep]

/-- Characterization of the cells produced by the first loop, under the
loop invariant on the incoming value index. -/
theorem rampLoop_getD (bps vals : List ℕ) (hs : List.Sorted (· < ·) bps) :
    ∀ (fuel i j : ℕ), j < fuel →
      (rampLoop bps vals fuel i
          (bps.countP (fun b => decide (b + 1 < i)))).getD j 0 =
        vals.getD (bps.countP (fun b => decide (b < i + j))) 0 % 256 := by
  intro fuel
  induction fuel with
  | zero => intro i j hj; omega
  | succ n ih =>
    intro i j hj
    have hstep := rampStep_countP bps i hs
    have hshift : (fun b => decide (b < i)) = (fun b => decide (b + 1 < i + 1)) := by
      funext b
      simp [Nat.succ_lt_succ_iff]
    cases j with
    | zero =>
      simp only [rampLoop, hstep, List.getD_cons_zero, Nat.add_zero]
    | succ j =>
      simp only [rampLoop, hstep, List.getD_cons_succ]
      have harith : i + (j + 1) = (i + 1) + j := by omega
      rw [harith, hshift, ih (i + 1) j (Nat.lt_of_succ_lt_succ hj)]

theorem padValues_getD_lt (bps vals : List ℕ) (hv : ∀ v ∈ vals, v < 256) (k : ℕ) :
    (padValues bps vals).getD k 0 < 256 := by
  have hvp : ∀ v ∈ padValues bps vals, v < 256 := by
    intro v hvm
    unfold padValues at hvm
    rcases List.mem_append.mp hvm with h1 | h2
    · exact hv v h1
    · have := List.eq_of_mem_replicate h2
      omega
  by_cases h : k < (padValues bps vals).length
  · rw [List.getD_eq_getElem _ _ h]
    exact hvp _ (List.getElem_mem h)
  · rw [List.getD_eq_default _ _ (Nat.le_of_not_lt h)]
    omega

theorem rampLoop_getD_zero (bps vals : List ℕ) (hs : List.Sorted (· < ·) bps)
    (fuel j : ℕ) (hj : j < fuel) :
    (rampLoop bps vals fuel 0 0).getD j 0 =
      vals.getD (bps.countP (fun b => decide (b < j))) 0 % 256 := by
  have h := rampLoop_getD bps vals hs fuel 0 j hj
  simpa using h

/-- C3 (amended): for strictly increasing breakpoints within the byte
domain and byte-range values, the ramp table has 256 samples; sample `i`
below the last breakpoint equals `values[k]` where `k` is the number of
breakpoints STRICTLY LESS THAN `i` (the source compares
`i > breakpoints[currentValueIndex]` before incrementing, so a sample that
equals a non-final breakpoint still takes the preceding value), and every
sample from the last breakpoint up holds the last value. -/
theorem rampData_characterization (bps vals : List ℕ) (hne : bps ≠ [])
    (hs : List.Sorted (· < ·) bps) (hb : ∀ b ∈ bps, b ≤ 255)
    (hv : ∀ v ∈ vals, v < 256) :
    (rampData bps vals).length = 256 ∧
    ∀ i, i < 256 →
      (rampData bps vals).getD i 0 =
        if i < bps.getLast hne
        then (padValues bps vals).getD (bps.countP (fun b => decide (b < i))) 0
        else (padValues bps vals).getD ((padValues bps vals).length - 1) 0 := by
  have hlast : bps.getLast? = some (bps.getLast hne) :=
    List.getLast?_eq_getLast_of_ne_nil hne
  have hL255 : bps.getLast hne ≤ 255 := hb _ (List.getLast_mem hne)
  have hmin : min (bps.getLast hne) 256 = bps.getLast hne :=
    min_eq_left (by omega)
  have hvp : ∀ v ∈ padValues bps vals, v < 256 := by
    intro v hvm
    unfold padValues at hvm
    rcases List.mem_append.mp hvm with h1 | h2
    · exact hv v h1
    · have := List.eq_of_mem_replicate h2
      omega
  have hdata : rampData bps vals =
      rampLoop bps (padValues bps vals) (bps.getLast hne) 0 0 ++
        List.replicate (256 - bps.getLast hne)
          ((padValues bps vals).getD ((padValues bps vals).length - 1) 0 % 256) := by
    unfold rampData
    rw [hlast]
    simp only [hmin]
  have hlen1 : (rampLoop bps (padValues bps vals) (bps.getLast hne) 0 0).length =
      bps.getLast hne := rampLoop_length bps (padValues bps vals) _ 0 0
  constructor
  · rw [hdata]
    simp only [List.length_append, List.length_replicate, hlen1]
    omega
  · intro i hi
    rw [hdata]
    by_cases hiL : i < bps.getLast hne
    · rw [if_pos hiL, List.getD_append _ _ _ _ (by rw [hlen1]; exact hiL)]
      rw [rampLoop_getD_zero bps (padValues bps vals) hs _ i hiL]
      exact Nat.mod_eq_of_lt (padValues_getD_lt bps vals hv _)
    · rw [if_neg hiL, List.getD_append_right _ _ _ _ (by rw [hlen1]; omega)]
      rw [hlen1]
      have hrep : i - bps.getLast hne < 256 - bps.getLast hne := by omega
      rw [List.getD_eq_getElem _ _ (by simpa using hrep)]
      rw [List.getElem_replicate]
      exact Nat.mod_eq_of_lt (padValues_getD_lt bps vals hv _)

/-- Witness for `rampData_characterization` at the spec example
`buildRamp([128], [80, 255])`. -/
theorem rampData_characterization_witness :
    (List.Sorted (· < ·) ([128] : List ℕ) ∧ ([128] : List ℕ) ≠ [] ∧
      (∀ b ∈ ([128] : List ℕ), b ≤ 255) ∧ (∀ v ∈ ([80, 255] : List ℕ), v < 256)) ∧
    ((rampData [128] [80, 255]).length = 256 ∧
      ∀ i, i < 256 →
        (rampData [128] [80, 255]).getD i 0 =
          if i < ([128] : List ℕ).getLast (by simp)
          then (padValues [128] [80, 255]).getD
            (([128] : List ℕ).countP (fun b => decide (b < i))) 0
          else (padValues [128] [80, 255]).getD
            ((padValues [128] [80, 255]).length - 1) 0) :=
  ⟨⟨by simp, by simp, by simp, by simp⟩,
    rampData_characterization [128] [80, 255] (by simp) (by simp) (by simp) (by simp)⟩

set_option maxRecDepth 40000 in
/-- C3 counterexample: with breakpoints `[3, 6]` and values `[10, 20, 30]`,
sample 3 (a non-final breakpoint) is `10`, while the claimed formula
`values[count of breakpoints ≤ i]` predicts `values[1] = 20`. -/
theorem rampData_at_breakpoint_counterexample :
    (rampData [3, 6] [10, 20, 30]).getD 3 0 = 10 ∧
    ([10, 20, 30] : List ℕ).getD
      (([3, 6] : List ℕ).countP (fun b => decide (b ≤ 3))) 0 = 20 := by
  decide

set_option maxRecDepth 40000 in
/-- C7 counterexample: `createRampTexture` performs no validation.  For the
non-increasing breakpoints `[6, 3]`, and for the breakpoint `300` outside
the 256-sample domain, it silently returns a fully built 256-entry table
instead of signalling an error. -/
theorem rampData_malformed_silently_accepted :
    (rampData [6, 3] [10, 20, 30]).length = 256 ∧
    (rampData [6, 3] [10, 20, 30]).getD 0 0 = 10 ∧
    (rampData [300] [5]).length = 256 := by
  refine ⟨?_, by decide, ?_⟩ <;> decide

/-- C7 (amended): ramp construction never fails: for EVERY breakpoints and
values descriptor, well formed or not, `createRampTexture` totally builds
a 256-entry table (out-of-domain writes are dropped by the typed array and
no error path exists). -/
theorem rampData_total_length (bps vals : List ℕ) :
    (rampData bps vals).length = 256 := by
  unfold rampData
  cases h : bps.getLast? with
  | none => rw [List.length_replicate]
  | some L =>
    simp only [List.length_append, List.length_replicate, rampLoop_length]
    omega

/-- The discrete zoom levels `zoomLevels = [0.5, 1, 2, 4]`
(`src/unnamed/part_000` line 36). -/
def zoomLevels : List ℚ := [1/2, 1, 2, 4]

/-- The keys tracked by `keyState`; `other` stands for any key not in the
`keyState` object, for which the handlers do nothing. -/
inductive Key
  | w
  | a
  | s
  | d
  | other
deriving DecidableEq

/-- Input-handler invocations and animation-loop iterations, in the order
they occur; handlers run between ticks (single-threaded event loop). -/
inductive Ev
  | keyDown (k : Key)
  | keyUp (k : Key)
  | mouseDown (x : ℤ)
  | mouseUp
  | mouseMove (x : ℤ)
  | wheel (dy : ℚ)
  | tick
deriving DecidableEq

/-- Observable render events of one `start` iteration: the pass rendering
`mainScene` into the render target, the pass rendering the quad to the
screen (both annotated with the pivot yaw in effect while they render),
and the assignment `cameraPivot.rotation.y = cameraRotation`.  Rotations
are recorded in units of `π/4` radians: `cameraRotation` only ever changes
by `±Math.PI / 4`, so an integer count embeds the value exactly. -/
inductive TickEv
  | pass1 (yaw : ℤ)
  | pass2 (yaw : ℤ)
  | setYaw (yaw : ℤ)
deriving DecidableEq

/-- JavaScript `Math.abs` on integer-valued numbers. -/
def jabs (d : ℤ) : ℤ := if d < 0 then -d else d

/-- The module-level mutable state of `src/unnamed/part_000` read and
written by the handlers and the animation loop.  The pivot world position
is not tracked: its depth steps are scaled by the irrational
`xAngleAdjustedUPCP` (`tan 60°` times the pixel size), and no claim below
depends on it; the accumulator drain and quad placement, which are
rational, are tracked exactly.  `rotSteps` is `cameraRotation` and
`pivotYaw` is `cameraPivot.rotation.y`, both in units of `π/4` radians. -/
structure Sys where
  keyW : Bool
  keyA : Bool
  keyS : Bool
  keyD : Bool
  mouseAction : Bool
  prevX : ℤ
  rotSteps : ℤ
  pivotYaw : ℤ
  zoom : ℚ
  target : ℚ
  zoomIndex : ℕ
  off : Vec3
  upcp : ℚ
  quad : ℚ × ℚ
deriving DecidableEq

/-- State after `init()`: `zoomLevel = targetZoomLevel = 1`,
`zoomIndex = 1`, `cameraRotation = 0`, zero render offset, and
`setZoom(1)` computed `unitPerCameraPixel = (10 - -10) / 324`. -/
def initSys : Sys where
  keyW := false
  keyA := false
  keyS := false
  keyD := false
  mouseAction := false
  prevX := 0
  rotSteps := 0
  pivotYaw := 0
  zoom := 1
  target := 1
  zoomIndex := 1
  off := ⟨0, 0, 0⟩
  upcp := 20/324
  quad := (0, 0)

/-- `onKeyDown` (`src/unnamed/part_000` lines 209-213): sets the flag of a
tracked key; other keys are ignored. -/
def onKeyDown (k : Key) (s : Sys) : Sys :=
  match k with
  | .w => {s with keyW := true}
  | .a => {s with keyA := true}
  | .s => {s with keyS := true}
  | .d => {s with keyD := true}
  | .other => s

/-- `onKeyUp` (lines 215-219): clears the flag of a tracked key. -/
def onKeyUp (k : Key) (s : Sys) : Sys :=
  match k with
  | .w => {s with keyW := false}
  | .a => {s with keyA := false}
  | .s => {s with keyS := false}
  | .d => {s with keyD := false}
  | .other => s

/-- `onMouseDown` (lines 173-176). -/
def onMouseDown (x : ℤ) (s : Sys) : Sys :=
  {s with mouseAction := true, prevX := x}

/-- `onMouseUp` (lines 184-186). -/
def onMouseUp (s : Sys) : Sys :=
  {s with mouseAction := false}

/-- `onMouseMove` (lines 194-207): when the button is held, a horizontal
displacement of more than 40 device pixels since the reference point adds
(leftward) or subtracts (rightward) a `π/4` yaw step and resets the
reference point to the current mouse position. -/
def onMouseMove (x : ℤ) (s : Sys) : Sys :=
  if !s.mouseAction then s
  else
    let deltaX := x - s.prevX
    let s1 := if deltaX < 0 ∧ 40 < jabs deltaX then
        {s with rotSteps := s.rotSteps + 1, prevX := x} else s
    if deltaX > 0 ∧ 40 < jabs deltaX then
      {s1 with rotSteps := s1.rotSteps - 1, prevX := x} else s1

/-- `onMouseScroll` (lines 228-244): ignored while a zoom transition is in
progress; otherwise steps `zoomIndex` by one, clamped at both ends, and
sets `targetZoomLevel = zoomLevels[zoomIndex]`. -/
def onMouseScroll (dy : ℚ) (s : Sys) : Sys :=
  if 1/10 < |s.zoom - s.target| then s
  else
    let i := if dy < 0 then
        (if s.zoomIndex < zoomLevels.length - 1 then s.zoomIndex + 1 else s.zoomIndex)
      else
        (if 0 < s.zoomIndex then s.zoomIndex - 1 else s.zoomIndex)
    {s with zoomIndex := i, target := zoomLevels.getD i 0}

/-- `THREE.MathUtils.lerp(x, y, t) = (1 - t) * x + t * y`. -/
def lerp (x y t : ℚ) : ℚ := (1 - t) * x + t * y

/-- `updateCameraPosition` (lines 274-281): while a pan key is held, the
render offset gains one fractional unit per frame along that key's axis
(`moveSpeed = 1`). -/
def updateCameraPosition (s : Sys) : Sys :=
  let o0 := s.off
  let o1 := if s.keyW then {o0 with z := o0.z + 1} else o0
  let o2 := if s.keyS then {o1 with z := o1.z - 1} else o1
  let o3 := if s.keyA then {o2 with x := o2.x - 1} else o2
  let o4 := if s.keyD then {o3 with x := o3.x + 1} else o3
  {s with off := o4}

/-- One iteration of the animation loop `start` (lines 386-402): zoom
lerp, `setZoom` (which recomputes `unitPerCameraPixel` from the new
frustum and the 324-pixel render-target height), `updateCameraPosition`,
the accumulator drain and quad placement of `applyRenderOffset`, the two
render passes, and finally `cameraPivot.rotation.y = cameraRotation`. -/
def tickSys (s : Sys) : Sys × List TickEv :=
  let z := lerp s.zoom s.target (1/10)
  let frustumSize := 10 / z
  let upcp := (frustumSize - -frustumSize) / 324
  let s1 := updateCameraPosition {s with zoom := z, upcp := upcp}
  let off : Vec3 := ⟨drainAxis s1.off.x, drainAxis s1.off.y, drainAxis s1.off.z⟩
  let qx := snapToPixelGrid (-((round off.x : ℤ) : ℚ) * upcp) upcp
  let qy := snapToPixelGrid (-((round (off.y + off.z) : ℤ) : ℚ) * upcp) upcp
  ({s1 with off := off, quad := (qx, qy), pivotYaw := s.rotSteps},
    [.pass1 s.pivotYaw, .pass2 s.pivotYaw, .setYaw s.rotSteps])

/-- Dispatch of the handler-only events (everything except `tick`). -/
def inputStep : Ev → Sys → Sys
  | .keyDown k, s => onKeyDown k s
  | .keyUp k, s => onKeyUp k s
  | .mouseDown x, s => onMouseDown x s
  | .mouseUp, s => onMouseUp s
  | .mouseMove x, s => onMouseMove x s
  | .wheel dy, s => onMouseScroll dy s
  | .tick, s => s

/-- Runs a sequence of events, collecting the trace of every tick. -/
def runSys : Sys → List Ev → Sys × List (List TickEv)
  | s, [] => (s, [])
  | s, Ev.tick :: es =>
    let s1 := (tickSys s).1
    let rest := runSys s1 es
    (rest.1, (tickSys s).2 :: rest.2)
  | s, e :: es => runSys (inputStep e s) es

/-- The state part of one event step (`tick` runs the loop body, anything
else runs its input handler). -/
def stepSys (e : Ev) (s : Sys) : Sys :=
  match e with
  | .tick => (tickSys s).1
  | e => inputStep e s

theorem runSys_fst_cons (e : Ev) (s : Sys) (es : List Ev) :
    (runSys s (e :: es)).1 = (runSys (stepSys e s) es).1 := by
  cases e <;> rfl

theorem inputStep_off (e : Ev) (s : Sys) : (inputStep e s).off = s.off := by
  cases e with
  | keyDown k => cases k <;> rfl
  | keyUp k => cases k <;> rfl
  | mouseDown x => rfl
  | mouseUp => rfl
  | mouseMove x =>
    simp only [inputStep, onMouseMove]
    split_ifs <;> rfl
  | wheel dy =>
    simp only [inputStep, onMouseScroll]
    split_ifs <;> rfl
  | tick => rfl

theorem updateCameraPosition_off_y (s : Sys) :
    (updateCameraPosition s).off.y = s.off.y := by
  unfold updateCameraPosition
  split_ifs <;> rfl

theorem drainAxis_zero : drainAxis 0 = 0 := by
  unfold drainAxis jsign
  norm_num

theorem tickSys_off_y (s : Sys) :
    ((tickSys s).1).off.y = drainAxis s.off.y := by
  show drainAxis (updateCameraPosition _).off.y = _
  rw [updateCameraPosition_off_y]

theorem stepSys_off_y (e : Ev) (s : Sys) (h : s.off.y = 0) :
    (stepSys e s).off.y = 0 := by
  cases e <;> simp only [stepSys] <;>
    first
      | (rw [tickSys_off_y, h, drainAxis_zero])
      | (rw [inputStep_off]; exact h)

theorem runSys_off_y (s : Sys) (hy : s.off.y = 0) (evs : List Ev) :
    ((runSys s evs).1).off.y = 0 := by
  induction evs generalizing s with
  | nil => exact hy
  | cons e es ih =>
    rw [runSys_fst_cons]
    exact ih _ (stepSys_off_y e s hy)

/-- C10: starting from initialization, no handler and no per-tick update
ever writes the vertical pan accumulator (only `x` and `z` are changed by
the w/a/s/d keys), so after any event sequence `renderOffset.y` is exactly
`0`, the vertical drain branch guard `abs(renderOffset.y) >= 1` never
holds, and the `renderOffset.y` contribution to the vertical compositing
offset `-round(renderOffset.y + renderOffset.z) * unitPerCameraPixel`
vanishes for every pixel size. -/
theorem renderOffset_y_never_written (evs : List Ev) :
    ((runSys initSys evs).1).off.y = 0 ∧
    ¬(1 ≤ |((runSys initSys evs).1).off.y|) ∧
    ∀ p : ℚ,
      snapToPixelGrid (-((round (((runSys initSys evs).1).off.y +
          ((runSys initSys evs).1).off.z) : ℤ) : ℚ) * p) p =
        snapToPixelGrid (-((round (((runSys initSys evs).1).off.z) : ℤ) : ℚ) * p) p := by
  have hy := runSys_off_y initSys rfl evs
  refine ⟨hy, ?_, ?_⟩
  · rw [hy]
    norm_num
  · intro p
    rw [hy, zero_add]

theorem stepSys_zoom_inv (e : Ev) (s : Sys)
    (h1 : s.zoomIndex < zoomLevels.length) (h2 : s.target ∈ zoomLevels) :
    (stepSys e s).zoomIndex < zoomLevels.length ∧
      (stepSys e s).target ∈ zoomLevels := by
  cases e with
  | keyDown k => cases k <;> exact ⟨h1, h2⟩
  | keyUp k => cases k <;> exact ⟨h1, h2⟩
  | mouseDown x => exact ⟨h1, h2⟩
  | mouseUp => exact ⟨h1, h2⟩
  | mouseMove x =>
    simp only [stepSys, inputStep, onMouseMove]
    split_ifs <;> exact ⟨h1, h2⟩
  | tick => exact ⟨h1, h2⟩
  | wheel dy =>
    simp only [stepSys, inputStep, onMouseScroll]
    split_ifs with hguard hdy hup hpos
    · exact ⟨h1, h2⟩
    · refine ⟨?_, ?_⟩
      · show s.zoomIndex + 1 < zoomLevels.length
        omega
      · show zoomLevels.getD (s.zoomIndex + 1) 0 ∈ zoomLevels
        rw [List.getD_eq_getElem _ _ (by omega)]
        exact List.getElem_mem _
    · refine ⟨?_, ?_⟩
      · show s.zoomIndex < zoomLevels.length
        exact h1
      · show zoomLevels.getD s.zoomIndex 0 ∈ zoomLevels
        rw [List.getD_eq_getElem _ _ h1]
        exact List.getElem_mem _
    · refine ⟨?_, ?_⟩
      · show s.zoomIndex - 1 < zoomLevels.length
        omega
      · show zoomLevels.getD (s.zoomIndex - 1) 0 ∈ zoomLevels
        rw [List.getD_eq_getElem _ _ (by omega)]
        exact List.getElem_mem _
    · refine ⟨?_, ?_⟩
      · show s.zoomIndex < zoomLevels.length
        exact h1
      · show zoomLevels.getD s.zoomIndex 0 ∈ zoomLevels
        rw [List.getD_eq_getElem _ _ h1]
        exact List.getElem_mem _

theorem runSys_zoom_inv (s : Sys) (evs : List Ev)
    (h1 : s.zoomIndex < zoomLevels.length) (h2 : s.target ∈ zoomLevels) :
    ((runSys s evs).1).zoomIndex < zoomLevels.length ∧
      ((runSys s evs).1).target ∈ zoomLevels := by
  induction evs generalizing s with
  | nil => exact ⟨h1, h2⟩
  | cons e es ih =>
    rw [runSys_fst_cons]
    obtain ⟨g1, g2⟩ := stepSys_zoom_inv e s h1 h2
    exact ih _ g1 g2

/-- C4: for every event sequence from initialization (`zoomIndex = 1`,
levels `[0.5, 1, 2, 4]`), the zoom index stays inside
`[0, zoomLevels.length - 1]` and `targetZoomLevel` is always one of the
levels; moreover a single `onMouseScroll` moves the index by at most one,
clamped, with no wraparound at either end. -/
theorem zoomIndex_bounded (evs : List Ev) :
    ((runSys initSys evs).1).zoomIndex < zoomLevels.length ∧
    ((runSys initSys evs).1).target ∈ zoomLevels ∧
    ∀ (dy : ℚ) (s : Sys),
      (onMouseScroll dy s).zoomIndex ≤ s.zoomIndex + 1 ∧
      s.zoomIndex ≤ (onMouseScroll dy s).zoomIndex + 1 := by
  obtain ⟨g1, g2⟩ := runSys_zoom_inv initSys evs (by simp [initSys, zoomLevels])
    (by simp [initSys, zoomLevels])
  refine ⟨g1, g2, ?_⟩
  intro dy s
  simp only [onMouseScroll]
  split_ifs <;> simp <;> omega

/-- `zoomLevel` after `n` consecutive ticks with no further input. -/
def zoomTicks (s : Sys) (n : ℕ) : ℚ :=
  ((runSys s (List.replicate n Ev.tick)).1).zoom

theorem tickSys_zoom (s : Sys) :
    ((tickSys s).1).zoom = lerp s.zoom s.target (1/10) := rfl

theorem tickSys_target (s : Sys) : ((tickSys s).1).target = s.target := rfl

/-- Closed form of the smoothed zoom: exponential decay with ratio 0.9. -/
theorem zoomTicks_closed (s : Sys) (n : ℕ) :
    zoomTicks s n = s.target + (s.zoom - s.target) * (9/10)^n := by
  induction n generalizing s with
  | zero =>
    show s.zoom = _
    ring
  | succ n ih =>
    have hstep : zoomTicks s (n+1) = zoomTicks ((tickSys s).1) n := by
      show ((runSys s (List.replicate (n+1) Ev.tick)).1).zoom = _
      rw [List.replicate_succ]
      rfl
    rw [hstep, ih, tickSys_zoom, tickSys_target, lerp]
    ring

/-- C5: with no further zoom intents, each tick replaces `zoomLevel` by
`lerp(zoomLevel, targetZoomLevel, 0.1)`; in exact arithmetic the distance
to the target is multiplied by exactly 0.9 per tick, hence for every
positive `eps` there is an `N` after which the distance stays below `eps`,
and the level always remains in the closed interval between its starting
value and the target, never overshooting it. -/
theorem zoom_convergence (s : Sys) (eps : ℚ) (heps : 0 < eps) :
    (∀ n, zoomTicks s n = s.target + (s.zoom - s.target) * (9/10)^n) ∧
    (∀ n, |zoomTicks s (n+1) - s.target| = 9/10 * |zoomTicks s n - s.target|) ∧
    (∃ N, ∀ n, N ≤ n → |zoomTicks s n - s.target| < eps) ∧
    (∀ n, min s.zoom s.target ≤ zoomTicks s n ∧
      zoomTicks s n ≤ max s.zoom s.target) := by
  have hclosed : ∀ n, zoomTicks s n = s.target + (s.zoom - s.target) * (9/10)^n :=
    fun n => zoomTicks_closed s n
  have h910 : |(9:ℚ)/10| = 9/10 := abs_of_pos (by norm_num)
  have habs : ∀ n, |zoomTicks s n - s.target| = |s.zoom - s.target| * (9/10)^n := by
    intro n
    rw [hclosed n, add_sub_cancel_left, abs_mul, abs_pow, h910]
  refine ⟨hclosed, ?_, ?_, ?_⟩
  · intro n
    rw [habs, habs]
    ring
  · by_cases hd : s.zoom - s.target = 0
    · exact ⟨0, fun n _ => by rw [habs, hd, abs_zero, zero_mul]; exact heps⟩
    · have hdpos : 0 < |s.zoom - s.target| := abs_pos.mpr hd
      obtain ⟨N, hN⟩ := exists_pow_lt_of_lt_one
        (div_pos heps hdpos) (by norm_num : (9:ℚ)/10 < 1)
      refine ⟨N, fun n hn => ?_⟩
      rw [habs]
      calc |s.zoom - s.target| * (9/10)^n
          ≤ |s.zoom - s.target| * (9/10)^N :=
            mul_le_mul_of_nonneg_left
              (pow_le_pow_of_le_one (by norm_num) (by norm_num) hn)
              (le_of_lt hdpos)
        _ < |s.zoom - s.target| * (eps / |s.zoom - s.target|) :=
            mul_lt_mul_of_pos_left hN hdpos
        _ = eps := by field_simp
  · intro n
    rw [hclosed n]
    have hr0 : (0:ℚ) ≤ (9/10)^n := pow_nonneg (by norm_num) n
    have hr1 : ((9:ℚ)/10)^n ≤ 1 := pow_le_one₀ (by norm_num) (by norm_num)
    rcases le_total s.zoom s.target with h | h
    · rw [min_eq_left h, max_eq_right h]
      constructor <;> nlinarith
    · rw [min_eq_right h, max_eq_left h]
      constructor <;> nlinarith

/-- Witness for `zoom_convergence` at the initial state and `eps = 1`. -/
theorem zoom_convergence_witness :
    (0:ℚ) < 1 ∧
    ((∀ n, zoomTicks initSys n =
        initSys.target + (initSys.zoom - initSys.target) * (9/10)^n) ∧
      (∀ n, |zoomTicks initSys (n+1) - initSys.target| =
        9/10 * |zoomTicks initSys n - initSys.target|) ∧
      (∃ N, ∀ n, N ≤ n → |zoomTicks initSys n - initSys.target| < 1) ∧
      (∀ n, min initSys.zoom initSys.target ≤ zoomTicks initSys n ∧
        zoomTicks initSys n ≤ max initSys.zoom initSys.target)) :=
  ⟨one_pos, zoom_convergence initSys 1 one_pos⟩

/-- The yaw a tick trace renders with (annotation of its first pass). -/
def yawUsed : List TickEv → ℤ
  | TickEv.pass1 y :: _ => y
  | _ => 0

/-- The yaw a tick trace assigns to the pivot at its end. -/
def yawAssigned : List TickEv → ℤ
  | [_, _, TickEv.setYaw c] => c
  | _ => 0

theorem inputStep_pivotYaw (e : Ev) (s : Sys) :
    (inputStep e s).pivotYaw = s.pivotYaw := by
  cases e with
  | keyDown k => cases k <;> rfl
  | keyUp k => cases k <;> rfl
  | mouseDown x => rfl
  | mouseUp => rfl
  | mouseMove x =>
    simp only [inputStep, onMouseMove]
    split_ifs <;> rfl
  | wheel dy =>
    simp only [inputStep, onMouseScroll]
    split_ifs <;> rfl
  | tick => rfl

theorem runSys_traces_shape (s : Sys) (evs : List Ev) :
    ∀ tr ∈ (runSys s evs).2, ∃ y c,
      tr = [TickEv.pass1 y, TickEv.pass2 y, TickEv.setYaw c] := by
  induction evs generalizing s with
  | nil =>
    intro tr htr
    simp [runSys] at htr
  | cons e es ih =>
    intro tr htr
    cases e with
    | tick =>
      have htr2 : tr = (tickSys s).2 ∨ tr ∈ (runSys ((tickSys s).1) es).2 :=
        List.mem_cons.mp htr
      rcases htr2 with rfl | hmem
      · exact ⟨s.pivotYaw, s.rotSteps, rfl⟩
      · exact ih _ tr hmem
    | keyDown k => exact ih _ tr htr
    | keyUp k => exact ih _ tr htr
    | mouseDown x => exact ih _ tr htr
    | mouseUp => exact ih _ tr htr
    | mouseMove x => exact ih _ tr htr
    | wheel dy => exact ih _ tr htr

theorem runSys_yawUsed_head (s : Sys) (evs : List Ev)
    (h : (runSys s evs).2 ≠ []) :
    yawUsed ((runSys s evs).2.getD 0 []) = s.pivotYaw := by
  induction evs generalizing s with
  | nil => exact absurd rfl h
  | cons e es ih =>
    cases e with
    | tick => rfl
    | keyDown k => exact (ih _ h).trans (inputStep_pivotYaw _ s)
    | keyUp k => exact (ih _ h).trans (inputStep_pivotYaw _ s)
    | mouseDown x => exact (ih _ h).trans (inputStep_pivotYaw _ s)
    | mouseUp => exact (ih _ h).trans (inputStep_pivotYaw _ s)
    | mouseMove x => exact (ih _ h).trans (inputStep_pivotYaw _ s)
    | wheel dy => exact (ih _ h).trans (inputStep_pivotYaw _ s)

theorem runSys_yaw_lag (s : Sys) (evs : List Ev) :
    ∀ n, n + 1 < (runSys s evs).2.length →
      yawUsed ((runSys s evs).2.getD (n+1) []) =
        yawAssigned ((runSys s evs).2.getD n []) := by
  induction evs generalizing s with
  | nil =>
    intro n h
    simp [runSys] at h
  | cons e es ih =>
    intro n h
    cases e with
    | tick =>
      have h2 : n + 1 <
          ((tickSys s).2 :: (runSys ((tickSys s).1) es).2).length := h
      rw [List.length_cons] at h2
      cases n with
      | zero =>
        have hne : (runSys ((tickSys s).1) es).2 ≠ [] := by
          intro hnil
          rw [hnil] at h2
          simp at h2
        show yawUsed ((runSys ((tickSys s).1) es).2.getD 0 []) =
          yawAssigned ((tickSys s).2)
        rw [runSys_yawUsed_head _ es hne]
        rfl
      | succ n =>
        show yawUsed ((runSys ((tickSys s).1) es).2.getD (n+1) []) =
          yawAssigned ((runSys ((tickSys s).1) es).2.getD n [])
        exact ih _ n (by omega)
    | keyDown k => exact ih _ n h
    | keyUp k => exact ih _ n h
    | mouseDown x => exact ih _ n h
    | mouseUp => exact ih _ n h
    | mouseMove x => exact ih _ n h
    | wheel dy => exact ih _ n h

/-- C8: in every tick of every run from initialization, the yaw assignment
to the pivot is the last event of the tick, after both render passes
(every trace is `[pass1 y, pass2 y, setYaw c]`), both passes render with
the same pivot yaw, and the yaw a tick assigns — `cameraRotation` as
accumulated by input before that assignment — is exactly the yaw the
passes of the NEXT tick render with: a one-tick latency, at every tick. -/
theorem yaw_one_tick_latency (evs : List Ev) :
    (∀ tr ∈ (runSys initSys evs).2, ∃ y c,
        tr = [TickEv.pass1 y, TickEv.pass2 y, TickEv.setYaw c]) ∧
    ∀ n, n + 1 < (runSys initSys evs).2.length →
      yawUsed ((runSys initSys evs).2.getD (n+1) []) =
        yawAssigned ((runSys initSys evs).2.getD n []) :=
  ⟨runSys_traces_shape initSys evs, runSys_yaw_lag initSys evs⟩

/-- Witness for `yaw_one_tick_latency` at a two-tick run with a yaw step
in between: the second tick renders the yaw the first tick assigned. -/
theorem yaw_one_tick_latency_witness :
    (0 + 1 < (runSys initSys
        [Ev.mouseDown 100, Ev.mouseMove 0, Ev.tick, Ev.tick]).2.length) ∧
    yawUsed ((runSys initSys
        [Ev.mouseDown 100, Ev.mouseMove 0, Ev.tick, Ev.tick]).2.getD 1 []) =
      yawAssigned ((runSys initSys
        [Ev.mouseDown 100, Ev.mouseMove 0, Ev.tick, Ev.tick]).2.getD 0 []) :=
  ⟨by decide,
    (yaw_one_tick_latency [Ev.mouseDown 100, Ev.mouseMove 0, Ev.tick, Ev.tick]).2
      0 (by decide)⟩

/-- The 85-device-pixel continuous leftward drag: a press at `x = 100`
followed by one mousemove per device pixel down to `x = 15`. -/
def dragEvents : List Ev :=
  Ev.mouseDown 100 :: (List.range 85).map (fun k => Ev.mouseMove (100 - ((k : ℤ) + 1)))

set_option maxRecDepth 40000 in
/-- C9: the 85-pixel continuous drag produces exactly two 45° yaw steps:
`cameraRotation` has advanced by 0 steps through the 40th pixel, by 1 step
from the 41st pixel (the first crossing of the 40 px threshold since the
press), still 1 step through the 81st, and by 2 steps from the 82nd pixel
(the second crossing, measured from the reset reference point); the drag's
3 remaining pixels add nothing, so yaw is 2 discrete steps rather than a
rotation proportional to the 85 px distance. -/
theorem drag_two_yaw_steps :
    ((runSys initSys dragEvents).1).rotSteps = 2 ∧
    ((runSys initSys (dragEvents.take 41)).1).rotSteps = 0 ∧
    ((runSys initSys (dragEvents.take 42)).1).rotSteps = 1 ∧
    ((runSys initSys (dragEvents.take 82)).1).rotSteps = 1 ∧
    ((runSys initSys (dragEvents.take 83)).1).rotSteps = 2 := by
  decide
